import Mathlib

/-!
Verification of the theme-path resolution core of the
`styled-components-ext-vs-code` extension.

The development shallowly embeds the TypeScript sources:

* `scripts/gen-theme-json.ts` — the flattening transform `flattenObject`;
* the completion provider (`ThemeCompletionItemProvider.provideCompletionItems`);
* the hover provider (`ThemeHoverProvider.provideHover` in
  `src/providers/hover.ts`);
* the inlay-hints provider (`ThemeInlayHintsProvider.provideInlayHints` in
  `src/providers/inlays.ts`).

JavaScript strings are modelled as Lean `String`s viewed as their character
lists (`String.data`); indices count characters.  JavaScript objects are
modelled as insertion-ordered association lists, which matches `for … in`
iteration order and `hasOwnProperty` for the plain string-keyed data the
extension manipulates.  All functions are total; totality models the
"never throws" behaviour of the corresponding TypeScript code paths.
-/

set_option autoImplicit false

namespace StyledTheme

/-- A JavaScript runtime value, as far as the theme scripts distinguish them:
`typeof` classes string / number / boolean / object (null, arrays and plain
objects) / function.  Numbers are modelled as integers; every numeric literal
in the sources is an integer and the code never computes with them.  A
function value carries its arity (`Function.length`). -/
inductive JSVal where
  | vStr : String → JSVal
  | vNum : Int → JSVal
  | vBool : Bool → JSVal
  | vNull : JSVal
  | vArr : List JSVal → JSVal
  | vObj : List (String × JSVal) → JSVal
  | vFunc : Nat → JSVal

/-- The flattened theme table (`FlattenedTheme` in the sources): a plain
JavaScript object, modelled as an insertion-ordered association list. -/
abbrev Table := List (String × JSVal)

/-- JavaScript property write `result[key] = v`: overwrite in place if the key
exists, otherwise append (insertion order preserved). -/
def setKey {α : Type} : List (String × α) → String → α → List (String × α)
  | [], k, v => [(k, v)]
  | (k', v') :: rest, k, v =>
    if k' = k then (k, v) :: rest else (k', v') :: setKey rest k v

/-- JavaScript `hasOwnProperty`. -/
def hasOwn (table : Table) (k : String) : Bool :=
  (table.lookup k).isSome

/-- JavaScript property read `table[k]`, on a key known to be present
(`vNull` stands for the unreachable `undefined`). -/
def getVal (table : Table) (k : String) : JSVal :=
  (table.lookup k).getD JSVal.vNull

/-- JavaScript truthiness of a value. -/
def jsvalTruthy : JSVal → Bool
  | .vStr s => s ≠ ""
  | .vNum n => n ≠ 0
  | .vBool b => b
  | .vNull => false
  | .vArr _ => true
  | .vObj _ => true
  | .vFunc _ => true

/-! ### Character and string helpers (JavaScript semantics) -/

/-- JavaScript `\w` (ASCII word character). -/
def isWordChar (c : Char) : Bool :=
  c.isAlphanum || c = '_'

/-- A character matched by the class `[\w.]`. -/
def isWordDot (c : Char) : Bool :=
  isWordChar c || c = '.'

/-- JavaScript `s.startsWith(pre)`. -/
def jsStartsWith (s pre : String) : Bool :=
  pre.data.isPrefixOf s.data

/-- JavaScript `s.endsWith(suf)`. -/
def jsEndsWith (s suf : String) : Bool :=
  suf.data.isSuffixOf s.data

/-- Substring test on character lists (scans every suffix). -/
def listContains (hay needle : List Char) : Bool :=
  if needle.isPrefixOf hay then true
  else
    match hay with
    | [] => false
    | _ :: rest => listContains rest needle

/-- JavaScript `s.includes(sub)`. -/
def jsIncludes (s sub : String) : Bool :=
  listContains s.data sub.data

/-- JavaScript `s.substring(n)` / `s.slice(n)` (drop the first `n` characters). -/
def jsDropStr (s : String) (n : Nat) : String :=
  ⟨s.data.drop n⟩

/-- JavaScript `s.substring(0, n)` (take the first `n` characters). -/
def jsTakeStr (s : String) (n : Nat) : String :=
  ⟨s.data.take n⟩

/-- JavaScript `s.split('.')` on the character list: splitting on `'.'`,
keeping empty pieces; the result is never the empty list. -/
def splitDot : List Char → List (List Char)
  | [] => [[]]
  | c :: rest =>
    if c = '.' then [] :: splitDot rest
    else
      match splitDot rest with
      | [] => [[c]]
      | h :: t => (c :: h) :: t

/-- JavaScript `s.split('.')`. -/
def jsSplit (s : String) : List String :=
  (splitDot s.data).map String.mk

/-- Index of the last `'.'` in a character list (JavaScript
`s.lastIndexOf('.')`, with `none` for `-1`). -/
def lastDotIdx : List Char → Option Nat
  | [] => none
  | c :: rest =>
    match lastDotIdx rest with
    | some j => some (j + 1)
    | none => if c = '.' then some 0 else none

/-! ### Flattening transform (`flattenObject` in `gen-theme-json.ts`) -/

/-- The synthesized marker string for the `spacing` function leaf:
``function(${obj[key].length > 0 ? 'factor' : ''}) => string | number``. -/
def funcMarker (arity : Nat) : String :=
  "function(" ++ (if arity > 0 then "factor" else "") ++ ") => string | number"

/-- The body of `flattenObject`'s `for … in` loop, iterating over the own
enumerable properties of the current object in insertion order.  Branching
mirrors the TypeScript exactly:

* a value with `typeof === 'object'`, non-null, not an array and with at
  least one key recurses (the nested `typeof !== 'function'` test is always
  true there, since functions are not of `typeof 'object'`);
* otherwise a non-function value is written to the result under the dotted
  key — this includes arrays, `null` and empty objects;
* a function value is written as the synthesized marker only under the key
  `"spacing"`, and is dropped otherwise. -/
def flattenFields : List (String × JSVal) → String → Table → Table
  | [], _, result => result
  | (key, v) :: rest, parentKey, result =>
    let newKey := if parentKey = "" then key else parentKey ++ "." ++ key
    match v with
    | .vObj fields =>
      if fields.length > 0 then
        flattenFields rest parentKey (flattenFields fields newKey result)
      else
        flattenFields rest parentKey (setKey result newKey (.vObj fields))
    | .vFunc arity =>
      if key = "spacing" then
        flattenFields rest parentKey (setKey result newKey (.vStr (funcMarker arity)))
      else
        flattenFields rest parentKey result
    | v' => flattenFields rest parentKey (setKey result newKey v')
termination_by fields _ _ => sizeOf fields
decreasing_by all_goals simp_wf <;> omega

/-- `flattenObject(obj, parentKey, result)`.  The script only ever invokes it
on plain objects (the theme root and nested composites); on a non-object the
`for … in` loop enumerates nothing. -/
def flattenObject : JSVal → String → Table → Table
  | .vObj fields, parentKey, result => flattenFields fields parentKey result
  | _, _, result => result

/-! ### Heap-based model of `flattenObject` for possibly-cyclic inputs

The inductive `JSVal` cannot represent a cyclic object graph, so to settle
what `flattenObject` does on a cycle we re-express the same loop over an
explicit heap: object-valued properties hold references (addresses) into a
store of field lists.  `flattenHFuel` is the identical branch structure with
a recursion budget; `none` means the budget was exhausted, i.e. the run did
not terminate within `fuel` nested calls.  The TypeScript function maintains
no visited set and has no error path, so on a cyclic heap every budget is
exhausted. -/

/-- A JavaScript value in the heap model: scalars and arrays are immediate,
plain objects are references into the heap. -/
inductive HVal where
  | hStr : String → HVal
  | hNum : Int → HVal
  | hBool : Bool → HVal
  | hNull : HVal
  | hArr : List HVal → HVal
  | hRef : Nat → HVal
  | hFunc : Nat → HVal

/-- A heap: addresses mapped to the field lists of plain objects. -/
abbrev Heap := List (Nat × List (String × HVal))

/-- Fuelled `flattenObject` over a heap.  Mirrors `flattenFields`: an object
reference whose target has at least one key recurses (spending one unit of
fuel per processed property); everything non-function otherwise is written to
the result; functions are written as the marker only under `"spacing"`.  A
dangling reference cannot arise for heaps describing real object graphs; it
is treated like any other non-recursing value. -/
def flattenHFuel (heap : Heap) :
    Nat → List (String × HVal) → String → List (String × HVal) →
    Option (List (String × HVal))
  | _, [], _, result => some result
  | 0, _ :: _, _, _ => none
  | fuel + 1, (key, v) :: rest, parentKey, result =>
    let newKey := if parentKey = "" then key else parentKey ++ "." ++ key
    match v with
    | .hRef a =>
      match heap.lookup a with
      | some fields =>
        if fields.length > 0 then
          match flattenHFuel heap fuel fields newKey result with
          | none => none
          | some r => flattenHFuel heap fuel rest parentKey r
        else
          flattenHFuel heap fuel rest parentKey (setKey result newKey (.hRef a))
      | none => flattenHFuel heap fuel rest parentKey (setKey result newKey (.hRef a))
    | .hFunc arity =>
      if key = "spacing" then
        flattenHFuel heap fuel rest parentKey (setKey result newKey (.hStr (funcMarker arity)))
      else
        flattenHFuel heap fuel rest parentKey result
    | v' => flattenHFuel heap fuel rest parentKey (setKey result newKey v')

/-- The field list of the self-referential object `a = {}; a.self = a`. -/
def cycFields : List (String × HVal) := [("self", HVal.hRef 0)]

/-- The one-object cyclic heap holding `a = {}; a.self = a` at address 0. -/
def cycHeap : Heap := [(0, cycFields)]

/-- `flattenHFuel` exhausts every recursion budget on the given fields:
the run does not terminate. -/
def flattenHDiverges (heap : Heap) (fields : List (String × HVal)) : Prop :=
  ∀ fuel parentKey result, flattenHFuel heap fuel fields parentKey result = none

/-! ### Completion engine
(`ThemeCompletionItemProvider.provideCompletionItems`, final version) -/

/-- A completion record, carrying the data the provider computes for each
item: the suggested next segment (the item label and filter text), the text
inserted on accept (the segment, plus a trailing dot when the path continues),
whether the suggestion is intermediate (`hasChildren`, which also selects the
item kind and the re-trigger command), and the full dotted path the
suggestion completes to. -/
structure Suggestion where
  segment : String
  insertText : String
  isIntermediate : Bool
  fullPath : String
deriving DecidableEq

/-- The next path segment to suggest for a candidate key, given the typed
path: for a typed path ending in `'.'` it is the first piece of the
remainder; mid-segment it is the full segment of the candidate at the index
of the partially typed segment (with the source's bounds test, whose failure
`continue`s). -/
def nextSegment (typedPath fullPath : String) : Option String :=
  if jsEndsWith typedPath "." then
    some ⟨(splitDot (fullPath.data.drop typedPath.data.length)).headD []⟩
  else
    let ts := splitDot typedPath.data
    let fs := splitDot fullPath.data
    if 0 < ts.length ∧ ts.length ≤ fs.length then
      some ⟨fs.getD (ts.length - 1) []⟩
    else
      none

/-- `potentialFullThemePath`: the full dotted path the suggestion completes
to from the theme root. -/
def potentialFull (typedPath seg : String) : String :=
  if jsEndsWith typedPath "." then typedPath ++ seg
  else
    match lastDotIdx typedPath.data with
    | none => seg
    | some i => jsTakeStr typedPath (i + 1) ++ seg

/-- `hasChildren`: some table key strictly extends the suggested path with a
further dotted segment. -/
def hasChildrenIn (table : Table) (pot : String) : Bool :=
  table.any (fun kv => jsStartsWith kv.1 (pot ++ ".") && kv.1 ≠ pot)

/-- `formsValidPrefix` in the source: the suggested path is a string prefix
of some table key. -/
def formsValidIn (table : Table) (pot : String) : Bool :=
  table.any (fun kv => jsStartsWith kv.1 pot)

/-- The `for … in` loop of the completion provider: candidates are the table
keys that start with the typed path; each contributes its next segment,
deduplicated by a seen set (the segment is marked seen before the validity
test, exactly as in the source); a suggestion survives unless it is neither
an existing key, nor has children, nor forms a prefix of any key. -/
def completeLoop (table : Table) (typedPath : String) :
    List (String × JSVal) → List String → List Suggestion
  | [], _ => []
  | (fullThemePath, _) :: rest, seen =>
    if jsStartsWith fullThemePath typedPath then
      match nextSegment typedPath fullThemePath with
      | none => completeLoop table typedPath rest seen
      | some seg =>
        if seg = "" || seen.contains seg then
          completeLoop table typedPath rest seen
        else
          let seen' := seg :: seen
          let pot := potentialFull typedPath seg
          let hasChildren := hasChildrenIn table pot
          if !hasOwn table pot && !hasChildren && !formsValidIn table pot then
            completeLoop table typedPath rest seen'
          else
            { segment := seg
              insertText := if hasChildren then seg ++ "." else seg
              isIntermediate := hasChildren
              fullPath := pot } :: completeLoop table typedPath rest seen'
    else
      completeLoop table typedPath rest seen

/-- The completion computation for an already-extracted typed path:
`complete(typedPrefix, table)` in the specification's terms. -/
def completeCore (typedPath : String) (table : Table) : List Suggestion :=
  completeLoop table typedPath table []

/-- The completion provider entry point.  `matchResult` is the result of
matching `THEME_ACCESS_PATTERN` against the text before the cursor: `none`
when the regex does not match (the provider returns `null`), otherwise the
captured typed path (possibly empty, the source's `match[1] || ''`).  With no
table snapshot the provider returns `null`. -/
def provideCompletionItems (matchResult : Option String) (themeData : Option Table) :
    Option (List Suggestion) :=
  match matchResult with
  | none => none
  | some typedPath =>
    match themeData with
    | none => none
    | some table => some (completeCore typedPath table)

/-! ### Hover resolver (`ThemeHoverProvider.provideHover`)

The provider only inspects the line the position is on (`document.lineAt`),
the word range at the position, and the file name; the document is therefore
modelled as a single line of text plus a character position, and the
`document.fileName.endsWith('.styled.ts')` test as a boolean flag. -/

/-- A resolved hover: the dotted path, its table value, and whether the
result came from the bare-token fallback (the source appends an "Assuming …
is derived from theme" disclaimer exactly in that tier). -/
structure HoverResult where
  path : String
  value : JSVal
  inferred : Bool

/-- Maximal runs of characters satisfying `p`, with their start indices, in
left-to-right order (the matches of a regex like `/[\w.]+/g`). -/
def runsOfAux (p : Char → Bool) : Nat → List Char → Nat → List (Nat × List Char)
  | 0, _, _ => []
  | _ + 1, [], _ => []
  | fuel + 1, c :: rest, i =>
    if p c then
      let r := (c :: rest).takeWhile p
      (i, r) :: runsOfAux p fuel ((c :: rest).dropWhile p) (i + r.length)
    else
      runsOfAux p fuel rest (i + 1)

/-- All maximal runs of characters satisfying `p`. -/
def runsOf (p : Char → Bool) (cs : List Char) : List (Nat × List Char) :=
  runsOfAux p cs.length cs 0

/-- `document.getWordRangeAtPosition(position, /[\w.]+/)`: the maximal
`[\w.]` run whose span contains the position (inclusive at both ends, as in
the editor's word lookup). -/
def wordRangeAt (cs : List Char) (pos : Nat) : Option (Nat × List Char) :=
  (runsOf isWordDot cs).find? (fun r => r.1 ≤ pos && pos ≤ r.1 + r.2.length)

/-- `getExtendedHoverText`: scan the maximal `[\w$.]` runs of the line; the
first run that spans the position, looks like a path, contains the hovered
word, starts with `theme.` and whose remainder maps to a truthy table value
is returned. -/
def getExtendedHoverText (table : Table) (cs : List Char) (pos : Nat)
    (currentWord : String) : Option String :=
  ((runsOf (fun c => isWordChar c || c = '.' || c = '$') cs).find? (fun r =>
      (r.1 ≤ pos && pos ≤ r.1 + r.2.length) &&
      (jsStartsWith ⟨r.2⟩ "theme." || r.2.contains '.') &&
      listContains r.2 currentWord.data &&
      jsStartsWith ⟨r.2⟩ "theme." &&
      (match table.lookup ⟨r.2.drop 6⟩ with
       | some v => jsvalTruthy v
       | none => false))).map (fun r => ⟨r.2⟩)

/-- A `\b` word boundary holds before the current position, given the
preceding character (`none` at the start of the text). -/
def boundaryBefore : Option Char → Bool
  | none => true
  | some c => !isWordChar c

/-- The regex `/\btheme\.([\w.]+)$/` applied to a string: the leftmost
occurrence of `theme.` at a word boundary whose whole remainder up to the
end of the string is a nonempty `[\w.]+` run; the capture is that
remainder. -/
def patTheme : Option Char → List Char → Option (List Char)
  | prev, cs =>
    if boundaryBefore prev && "theme.".data.isPrefixOf cs &&
        !(cs.drop 6).isEmpty && (cs.drop 6).all isWordDot then
      some (cs.drop 6)
    else
      match cs with
      | [] => none
      | c :: rest => patTheme (some c) rest

/-- The regex `/\bprops\.theme\.([\w.]+)$/`. -/
def patPropsTheme : Option Char → List Char → Option (List Char)
  | prev, cs =>
    if boundaryBefore prev && "props.theme.".data.isPrefixOf cs &&
        !(cs.drop 12).isEmpty && (cs.drop 12).all isWordDot then
      some (cs.drop 12)
    else
      match cs with
      | [] => none
      | c :: rest => patPropsTheme (some c) rest

/-- Consume `\s*` (JavaScript whitespace) from the front of a list. -/
def eatWs (cs : List Char) : List Char :=
  cs.dropWhile Char.isWhitespace

/-- Attempt the tail `=> \s* theme\. ([\w.]+)$` part shared by the arrow
patterns, after the closing parenthesis has been consumed. -/
def arrowTail (cs : List Char) : Option (List Char) :=
  match eatWs cs with
  | '=' :: '>' :: rest =>
    let rest' := eatWs rest
    if "theme.".data.isPrefixOf rest' && !(rest'.drop 6).isEmpty &&
        (rest'.drop 6).all isWordDot then
      some (rest'.drop 6)
    else
      none
  | _ => none

/-- The regex `/\(\s*\{\s*theme\s*\}\s*\)\s*=>\s*theme\.([\w.]+)$/`:
attempted at one position. -/
def patArrowAt (cs : List Char) : Option (List Char) :=
  match cs with
  | '(' :: rest =>
    match eatWs rest with
    | '\x7b' :: rest₁ =>
      match eatWs rest₁ with
      | 't' :: 'h' :: 'e' :: 'm' :: 'e' :: rest₂ =>
        match eatWs rest₂ with
        | '\x7d' :: rest₃ =>
          match eatWs rest₃ with
          | ')' :: rest₄ => arrowTail rest₄
          | _ => none
        | _ => none
      | _ => none
    | _ => none
  | _ => none

/-- Leftmost match of the arrow destructuring pattern. -/
def patArrow : List Char → Option (List Char)
  | [] => none
  | c :: rest =>
    match patArrowAt (c :: rest) with
    | some cap => some cap
    | none => patArrow rest

/-- The `themeAccessPatterns` loop of the hover provider: each pattern is
run against the line up to the end of the hovered word; its capture is
accepted when the hovered word equals it or is a suffix of it (the source's
additional text-equality re-check is identically true). -/
def tryPatterns (lineTill : List Char) (hoveredWord : String) : Option String :=
  match patTheme none lineTill with
  | some cap =>
    if !cap.isEmpty && (hoveredWord.data = cap || hoveredWord.data.isSuffixOf cap) then
      some ⟨cap⟩
    else
      match patPropsTheme none lineTill with
      | some cap₂ =>
        if !cap₂.isEmpty && (hoveredWord.data = cap₂ || hoveredWord.data.isSuffixOf cap₂) then
          some ⟨cap₂⟩
        else
          match patArrow lineTill with
          | some cap₃ =>
            if !cap₃.isEmpty && (hoveredWord.data = cap₃ || hoveredWord.data.isSuffixOf cap₃) then
              some ⟨cap₃⟩
            else none
          | none => none
      | none =>
        match patArrow lineTill with
        | some cap₃ =>
          if !cap₃.isEmpty && (hoveredWord.data = cap₃ || hoveredWord.data.isSuffixOf cap₃) then
            some ⟨cap₃⟩
          else none
        | none => none
  | none =>
    match patPropsTheme none lineTill with
    | some cap₂ =>
      if !cap₂.isEmpty && (hoveredWord.data = cap₂ || hoveredWord.data.isSuffixOf cap₂) then
        some ⟨cap₂⟩
      else
        match patArrow lineTill with
        | some cap₃ =>
          if !cap₃.isEmpty && (hoveredWord.data = cap₃ || hoveredWord.data.isSuffixOf cap₃) then
            some ⟨cap₃⟩
          else none
        | none => none
    | none =>
      match patArrow lineTill with
      | some cap₃ =>
        if !cap₃.isEmpty && (hoveredWord.data = cap₃ || hoveredWord.data.isSuffixOf cap₃) then
          some ⟨cap₃⟩
        else none
      | none => none

/-- The experimental bare-token fallback tier of the hover provider: the
hovered word itself is a table key and the line looks like a styled-component
interpolation (`${` present, and either `styled` on the line or a
`.styled.ts` file). -/
def hoverFallback (table : Table) (lineText : String) (hoveredWord : String)
    (isStyledFile : Bool) : Option HoverResult :=
  if hasOwn table hoveredWord && jsIncludes lineText "$\x7b" &&
      (jsIncludes lineText "styled" || isStyledFile) then
    some { path := hoveredWord, value := getVal table hoveredWord, inferred := true }
  else
    none

/-- The full-theme-path determination of the hover provider: first the
hovered word's own `theme.` prefix, then `getExtendedHoverText`, then the
anchored `themeAccessPatterns` on the line up to the hovered word's end. -/
def computeFtp (table : Table) (lineText : String) (charPos : Nat)
    (wordEnd : Nat) (hoveredWord : String) : Option String :=
  if jsStartsWith hoveredWord "theme." then
    some (jsDropStr hoveredWord 6)
  else
    match getExtendedHoverText table lineText.data charPos hoveredWord with
    | some ext =>
      if jsStartsWith ext "theme." then some (jsDropStr ext 6)
      else tryPatterns (lineText.data.take wordEnd) hoveredWord
    | none => tryPatterns (lineText.data.take wordEnd) hoveredWord

/-- `ThemeHoverProvider.provideHover`.  With no theme data or no word at the
position the provider returns `null`.  A truthy resolved path present in the
table yields the high-confidence hover; a falsy (`null` or empty) resolved
path falls through to the bare-token fallback; a truthy path absent from the
table yields `null`. -/
def provideHover (themeData : Option Table) (lineText : String) (charPos : Nat)
    (isStyledFile : Bool) : Option HoverResult :=
  match themeData with
  | none => none
  | some table =>
    match wordRangeAt lineText.data charPos with
    | none => none
    | some (s, run) =>
      let hoveredWord : String := ⟨run⟩
      match computeFtp table lineText charPos (s + run.length) hoveredWord with
      | some pth =>
        if pth ≠ "" then
          if hasOwn table pth then
            some { path := pth, value := getVal table pth, inferred := false }
          else
            none
        else
          hoverFallback table lineText hoveredWord isStyledFile
      | none => hoverFallback table lineText hoveredWord isStyledFile

/-! ### Inlay annotator (`ThemeInlayHintsProvider.provideInlayHints`)

The scanner embeds `THEME_PATH_DETECTION_REGEX`
`/(?:\btheme\.([\w.]+)\b)|(?:props\.theme\.([\w.]+)\b)|(?:\(\s*\{[^}]*theme[^}]*\}\s*\)\s*=>\s*theme\.([\w.]+)\b)/g`:
positions are scanned left to right, the three alternatives are tried in
order at each position, and searching resumes after a match's full extent.
The greedy `([\w.]+)\b` capture is the maximal `[\w.]` run with trailing
dots backtracked away so the capture ends at a word boundary. -/

/-- An inlay hint record: the hint position (after the matched accessor),
its label, and the resolved path (shown in the tooltip). -/
structure Hint where
  pos : Nat
  label : String
  path : String
deriving DecidableEq

/-- The greedy `([\w.]+)\b` capture starting at the given characters: the
maximal `[\w.]` run with trailing dots removed; empty means no match. -/
def greedyCapture (cs : List Char) : List Char :=
  ((cs.takeWhile isWordDot).reverse.dropWhile (fun c => c = '.')).reverse

/-- Alternative 1, `\btheme\.([\w.]+)\b`, tried at one position: returns the
consumed length and the capture. -/
def altTheme (prev : Option Char) (cs : List Char) : Option (Nat × List Char) :=
  if boundaryBefore prev && "theme.".data.isPrefixOf cs then
    let cap := greedyCapture (cs.drop 6)
    if cap.isEmpty then none else some (6 + cap.length, cap)
  else
    none

/-- Alternative 2, `props\.theme\.([\w.]+)\b` (no leading boundary in the
source pattern), tried at one position. -/
def altPropsTheme (cs : List Char) : Option (Nat × List Char) :=
  if "props.theme.".data.isPrefixOf cs then
    let cap := greedyCapture (cs.drop 12)
    if cap.isEmpty then none else some (12 + cap.length, cap)
  else
    none

/-- Alternative 3, `\(\s*\{[^}]*theme[^}]*\}\s*\)\s*=>\s*theme\.([\w.]+)\b`,
tried at one position.  The brace content is everything up to the first `}`
and must contain `theme`. -/
def altArrow (cs : List Char) : Option (Nat × List Char) :=
  match cs with
  | '(' :: rest =>
    let afterWs := eatWs rest
    match afterWs with
    | '\x7b' :: inner =>
      let content := inner.takeWhile (fun c => c ≠ '\x7d')
      let afterContent := inner.drop content.length
      if listContains content "theme".data then
        match afterContent with
        | '\x7d' :: rest₁ =>
          match eatWs rest₁ with
          | ')' :: rest₂ =>
            match eatWs rest₂ with
            | '=' :: '>' :: rest₃ =>
              let rest₄ := eatWs rest₃
              if "theme.".data.isPrefixOf rest₄ then
                let cap := greedyCapture (rest₄.drop 6)
                if cap.isEmpty then none
                else
                  some (cs.length - (rest₄.length - 6 - cap.length), cap)
              else none
            | _ => none
          | _ => none
        | _ => none
      else none
    | _ => none
  | _ => none

/-- One attempt of the full alternation at a position. -/
def tryMatch (prev : Option Char) (cs : List Char) : Option (Nat × List Char) :=
  match altTheme prev cs with
  | some m => some m
  | none =>
    match altPropsTheme cs with
    | some m => some m
    | none => altArrow cs

/-- The `exec` loop of the global regex: scan left to right, emit
`(index, length, capture)` per match, resume after the match. -/
def findMatchesAux : Nat → Option Char → Nat → List Char → List (Nat × Nat × List Char)
  | 0, _, _, _ => []
  | _ + 1, _, _, [] => []
  | fuel + 1, prev, i, c :: rest =>
    match tryMatch prev (c :: rest) with
    | some (len, cap) =>
      (i, len, cap) ::
        findMatchesAux fuel (((c :: rest).take len).getLast? ) (i + len) ((c :: rest).drop len)
    | none => findMatchesAux fuel (some c) (i + 1) rest

/-- All matches of `THEME_PATH_DETECTION_REGEX` in a text. -/
def findMatches (cs : List Char) : List (Nat × Nat × List Char) :=
  findMatchesAux cs.length none 0 cs

/-- Build the hint for one match, mirroring the loop body: the path must be
an own property and its value a scalar; long strings are truncated to 17
characters plus an ellipsis; the hint sits at `offset + index + length`. -/
def hintOf (table : Table) (offset : Nat) (m : Nat × Nat × List Char) : Option Hint :=
  let themeKeyPath : String := ⟨m.2.2⟩
  match table.lookup themeKeyPath with
  | none => none
  | some v =>
    match v with
    | .vStr s =>
      let displayValue := if s.data.length > 20 then ⟨s.data.take 17⟩ ++ "..." else s
      some { pos := offset + m.1 + m.2.1, label := "= " ++ displayValue, path := themeKeyPath }
    | .vNum n =>
      some { pos := offset + m.1 + m.2.1, label := "= " ++ toString n, path := themeKeyPath }
    | .vBool b =>
      some { pos := offset + m.1 + m.2.1, label := "= " ++ toString b, path := themeKeyPath }
    | _ => none

/-- The `while` loop over the matches: `token.isCancellationRequested` is
checked once per match, before it is processed; when it reports true the
provider returns the empty array, discarding the hints accumulated so far.
The cancel token is modelled as a predicate on the index of the check. -/
def inlayLoop (table : Table) (offset : Nat) (cancel : Nat → Bool) :
    List (Nat × Nat × List Char) → Nat → List Hint → List Hint
  | [], _, acc => acc
  | m :: ms, k, acc =>
    if cancel k then []
    else
      match hintOf table offset m with
      | some h => inlayLoop table offset cancel ms (k + 1) (acc ++ [h])
      | none => inlayLoop table offset cancel ms (k + 1) acc

/-- `ThemeInlayHintsProvider.provideInlayHints` over the text of the
requested range (`offset` is the range's start offset in the document). -/
def provideInlayHints (themeData : Option Table) (text : String) (offset : Nat)
    (cancel : Nat → Bool) : List Hint :=
  match themeData with
  | none => []
  | some table => inlayLoop table offset cancel (findMatches text.data) 0 []

/-- The hints produced by processing only the first `k` matches with no
cancellation: the partial results accumulated when the `k`-th cancellation
check runs. -/
def inlayPrefixRun (table : Table) (text : String) (offset : Nat) (k : Nat) : List Hint :=
  inlayLoop table offset (fun _ => false) ((findMatches text.data).take k) 0 []

/-! ### Specification-side helpers -/

/-- First-occurrence deduplication with an initial seen set. -/
def dedupFirstAux (seen : List String) : List String → List String
  | [] => []
  | s :: rest =>
    if seen.contains s then dedupFirstAux seen rest
    else s :: dedupFirstAux (s :: seen) rest

/-- First-occurrence deduplication of a list. -/
def dedupFirst (l : List String) : List String :=
  dedupFirstAux [] l

/-- The next-segment sequence of the matching table keys, in table order. -/
def specSegs (typedPath : String) (table : Table) : List String :=
  table.filterMap (fun kv =>
    if jsStartsWith kv.1 typedPath then nextSegment typedPath kv.1 else none)

/-- A deduplicated segment survives to the output iff its completed path is
an existing key, has children, or is a prefix of some key. -/
def emitCond (typedPath : String) (table : Table) (seg : String) : Bool :=
  hasOwn table (potentialFull typedPath seg) ||
    hasChildrenIn table (potentialFull typedPath seg) ||
    formsValidIn table (potentialFull typedPath seg)

/-! ### Concrete inputs used by the witnesses and counterexamples -/

/-- The specification's two-branch example table. -/
def tableTwoBranch : Table :=
  [("palette.primary.main", JSVal.vStr "#1976d2"), ("typography.fontSize", JSVal.vNum 14)]

/-- The specification's palette table. -/
def tablePalette : Table :=
  [("palette.primary.main", JSVal.vStr "#1976d2"),
   ("palette.secondary.main", JSVal.vStr "#9c27b0")]

/-- The specification's hover example line. -/
def hoverLine : String := "$\x7b(\x7btheme\x7d) => theme.typography.fontSize\x7d"

/-- The table for the hover example. -/
def tableFontSize : Table := [("typography.fontSize", JSVal.vNum 14)]

/-- A two-accessor line for the cancellation example. -/
def inlayLine : String := "theme.a theme.b"

/-- The table for the cancellation example. -/
def tableAB : Table := [("a", JSVal.vNum 1), ("b", JSVal.vNum 2)]

/-- A token that requests cancellation exactly at the second check. -/
def cancelAtOne (k : Nat) : Bool := k == 1

/-! ## Theorems -/

/-- C1: the claim says a cycle is detected and fails the flattening with a
`MalformedTree` error.  The source's `flattenObject` maintains no visited set
and has no error path at all: on the self-referential object
`a = {}; a.self = a` it recurses unboundedly.  In the fuelled heap model,
every recursion budget is exhausted — the run never terminates, with no
`MalformedTree` (or any other) error value in sight. -/
theorem C1_flatten_cycle_diverges : flattenHDiverges cycHeap cycFields := by
  intro fuel
  induction fuel with
  | zero => intro parentKey result; rfl
  | succ n ih =>
    intro parentKey result
    have h1 := ih (if parentKey = "" then "self" else parentKey ++ "." ++ "self") result
    simp only [cycHeap, cycFields] at h1 ⊢
    simp [flattenHFuel, List.lookup, h1]

/-- C3 counterexample: flattening the tree `{a: {}}` does produce an entry
for the empty composite node `a` — the claim says the table contains no
entry for it. -/
theorem C3_empty_composite_cex :
    flattenObject (JSVal.vObj [("a", JSVal.vObj [])]) "" [] = [("a", JSVal.vObj [])] := by
  simp [flattenObject, flattenFields, setKey]

/-- C3 amended: an empty-object-valued property is not silently omitted; it
is emitted as a single entry under its dotted path with the empty object
itself as the value (it falls into the same write branch as any other
non-recursing value). -/
theorem C3_empty_composite_emitted (key : String) (rest : List (String × JSVal))
    (parentKey : String) (result : Table) :
    flattenFields ((key, JSVal.vObj []) :: rest) parentKey result =
      flattenFields rest parentKey
        (setKey result (if parentKey = "" then key else parentKey ++ "." ++ key)
          (JSVal.vObj [])) := by
  simp [flattenFields]

/-- C9: an array-valued property is neither recursed into nor dropped:
processing it performs exactly one table write of the array value itself
under the property's dotted path. -/
theorem C9_array_emitted_as_leaf (key : String) (xs : List JSVal)
    (rest : List (String × JSVal)) (parentKey : String) (result : Table) :
    flattenFields ((key, JSVal.vArr xs) :: rest) parentKey result =
      flattenFields rest parentKey
        (setKey result (if parentKey = "" then key else parentKey ++ "." ++ key)
          (JSVal.vArr xs)) := by
  simp [flattenFields]

/-- C4: with no table snapshot (`getThemeData()` returns `null`), every
query operation returns its empty or absent result: completion returns
`null` for every regex outcome, hover returns `null` for every line and
position, and the inlay provider returns the empty list for every text,
range offset and cancel token.  Totality of the definitions models that none
of them can throw. -/
theorem C4_missing_table_empty (m : Option String) (line : String) (pos : Nat)
    (styled : Bool) (text : String) (off : Nat) (cancel : Nat → Bool) :
    provideCompletionItems m none = none ∧
      provideHover none line pos styled = none ∧
      provideInlayHints none text off cancel = [] := by
  refine ⟨?_, rfl, rfl⟩
  cases m <;> rfl

/-- C5: completing the empty typed prefix against
`{"palette.primary.main": "#1976d2", "typography.fontSize": 14}` yields
exactly the two first-level segments, in table order, both intermediate
(with a trailing-dot insert text that re-triggers completion). -/
theorem C5_empty_prefix_completion :
    completeCore "" tableTwoBranch =
      [{ segment := "palette", insertText := "palette.", isIntermediate := true,
         fullPath := "palette" },
       { segment := "typography", insertText := "typography.", isIntermediate := true,
         fullPath := "typography" }] := by
  decide

/-- C8: hovering inside `fontSize` (character 35) of the line
`${({theme}) => theme.typography.fontSize}` against
`{"typography.fontSize": 14}` resolves through the first (high-confidence)
tier to the path `typography.fontSize` with value `14`; the `inferred`
fallback marker is not set. -/
theorem C8_hover_resolves_high_confidence :
    provideHover (some tableFontSize) hoverLine 35 false =
      some { path := "typography.fontSize", value := JSVal.vNum 14, inferred := false } := by
  rfl

/-- C2 counterexample: scanning `"theme.a theme.b"` with a token that fires
at the second per-match check, the partial results produced so far are one
hint (for `theme.a`), but the provider returns the empty list — not the
partial results, contradicting the claim at this input. -/
theorem C2_cancel_discards_partials_cex :
    provideInlayHints (some tableAB) inlayLine 0 cancelAtOne = [] ∧
      inlayPrefixRun tableAB inlayLine 0 1 = [{ pos := 7, label := "= 1", path := "a" }] ∧
      provideInlayHints (some tableAB) inlayLine 0 cancelAtOne ≠
        inlayPrefixRun tableAB inlayLine 0 1 := by
  decide

/-- If some per-match cancellation check fires, the inlay loop returns the
empty list, whatever it has accumulated. -/
theorem inlayLoop_cancelled (table : Table) (off : Nat) (cancel : Nat → Bool) :
    ∀ (ms : List (Nat × Nat × List Char)) (k : Nat) (acc : List Hint),
      (∃ j, j < ms.length ∧ cancel (k + j) = true) →
      inlayLoop table off cancel ms k acc = [] := by
  intro ms
  induction ms with
  | nil => intro k acc h; exact absurd h (by simp)
  | cons m rest ih =>
    intro k acc h
    obtain ⟨j, hj, hc⟩ := h
    by_cases hk : cancel k = true
    · simp [inlayLoop, hk]
    · have hj0 : j ≠ 0 := by
        intro h0; rw [h0, Nat.add_zero] at hc; exact hk hc
      obtain ⟨j', rfl⟩ := Nat.exists_eq_succ_of_ne_zero hj0
      have hrec : ∃ j, j < rest.length ∧ cancel (k + 1 + j) = true := by
        refine ⟨j', by simpa using hj, ?_⟩
        simpa [Nat.add_comm, Nat.add_assoc, Nat.add_left_comm] using hc
      simp only [inlayLoop, hk, if_false, Bool.false_eq_true]
      cases hintOf table off m with
      | none => simpa using ih (k + 1) acc hrec
      | some hh => simpa using ih (k + 1) (acc ++ [hh]) hrec

/-- C2 amended: when cancellation is requested at one of the per-match
checks of an annotate scan, the provider returns immediately with the
*empty* list — not the partial results accumulated so far — and the empty
list is (trivially) a prefix of the uncancelled scan's result list; the
operation never throws (it is total). -/
theorem C2_cancel_returns_empty (table : Table) (text : String) (off : Nat)
    (cancel : Nat → Bool) (k : Nat) (hk : cancel k = true)
    (hlt : k < (findMatches text.data).length) :
    provideInlayHints (some table) text off cancel = [] ∧
      provideInlayHints (some table) text off cancel <+:
        provideInlayHints (some table) text off (fun _ => false) := by
  have h : provideInlayHints (some table) text off cancel = [] := by
    simp only [provideInlayHints]
    exact inlayLoop_cancelled table off cancel _ 0 [] ⟨k, hlt, by simpa using hk⟩
  exact ⟨h, by simp [h]⟩

/-- Witness for C2's amended theorem at the concrete cancellation example. -/
theorem C2_cancel_returns_empty_witness :
    provideInlayHints (some tableAB) inlayLine 0 cancelAtOne = [] ∧
      provideInlayHints (some tableAB) inlayLine 0 cancelAtOne <+:
        provideInlayHints (some tableAB) inlayLine 0 (fun _ => false) :=
  C2_cancel_returns_empty tableAB inlayLine 0 cancelAtOne 1 (by decide) (by decide)

/-- The bare-token fallback only answers with the hovered word when it is an
own property of the table. -/
theorem hoverFallback_lookup_isSome (table : Table) (line w : String) (styled : Bool)
    (r : HoverResult) (h : hoverFallback table line w styled = some r) :
    (table.lookup r.path).isSome = true := by
  unfold hoverFallback at h
  split at h
  · next hc =>
    cases h
    simp only [Bool.and_eq_true] at hc
    simpa [hasOwn] using hc.1.1
  · exact absurd h (by simp)

/-- C10: whenever the hover resolver returns a result — through either tier
— the resolved path is a key present in the supplied theme table. -/
theorem C10_hover_path_in_table (table : Table) (line : String) (pos : Nat)
    (styled : Bool) (r : HoverResult)
    (h : provideHover (some table) line pos styled = some r) :
    (table.lookup r.path).isSome = true := by
  simp only [provideHover] at h
  cases hw : wordRangeAt line.data pos with
  | none => rw [hw] at h; exact absurd h (by simp)
  | some sr =>
    obtain ⟨s, run⟩ := sr
    rw [hw] at h
    dsimp only at h
    cases hf : computeFtp table line pos (s + run.length) ⟨run⟩ with
    | none =>
      rw [hf] at h
      dsimp only at h
      exact hoverFallback_lookup_isSome table line ⟨run⟩ styled r h
    | some pth =>
      rw [hf] at h
      dsimp only at h
      by_cases hne : pth = ""
      · rw [if_neg (by simp [hne])] at h
        exact hoverFallback_lookup_isSome table line ⟨run⟩ styled r h
      · rw [if_pos hne] at h
        by_cases how : hasOwn table pth = true
        · rw [if_pos how] at h
          cases h
          simpa [hasOwn] using how
        · rw [if_neg how] at h
          exact absurd h (by simp)

/-- Witness for C10 at the concrete hover example. -/
theorem C10_hover_path_in_table_witness :
    (tableFontSize.lookup "typography.fontSize").isSome = true :=
  C10_hover_path_in_table tableFontSize hoverLine 35 false
    { path := "typography.fontSize", value := JSVal.vNum 14, inferred := false } rfl

/-- The completion loop's suggestion sequence factors into the pipeline:
next segments of matching keys in table order, empty segments removed,
first-occurrence deduplication, then the validity filter. -/
theorem completeLoop_map_segment (table : Table) (p : String) :
    ∀ (rest : List (String × JSVal)) (seen : List String),
      (completeLoop table p rest seen).map Suggestion.segment =
        (dedupFirstAux seen
            ((rest.filterMap (fun kv =>
              if jsStartsWith kv.1 p then nextSegment p kv.1 else none)).filter
                (fun s => s != ""))).filter (emitCond p table) := by
  intro rest
  induction rest with
  | nil => intro seen; rfl
  | cons kv rest ih =>
    intro seen
    obtain ⟨k, v⟩ := kv
    by_cases hsw : jsStartsWith k p = true
    · cases hseg : nextSegment p k with
      | none => simp [completeLoop, hsw, hseg, List.filterMap_cons, ih]
      | some seg =>
        by_cases hseg0 : seg = ""
        · simp [completeLoop, hsw, hseg, hseg0, List.filterMap_cons, ih]
        · by_cases hmem : seg ∈ seen
          · simp [completeLoop, hsw, hseg, hseg0, hmem, List.filterMap_cons,
              List.filter_cons, dedupFirstAux, ih]
          · by_cases hemit : emitCond p table seg = true
            · have hC : ¬ ((hasOwn table (potentialFull p seg) = false ∧
                  hasChildrenIn table (potentialFull p seg) = false) ∧
                    formsValidIn table (potentialFull p seg) = false) := by
                simp only [emitCond, Bool.or_eq_true] at hemit
                rcases hemit with (h | h) | h <;> simp [h]
              simp [completeLoop, hsw, hseg, hseg0, hmem, hC, List.filterMap_cons,
                List.filter_cons, dedupFirstAux, hemit, ih]
            · have h1 : hasOwn table (potentialFull p seg) = false := by
                cases hx : hasOwn table (potentialFull p seg) with
                | false => rfl
                | true => exact absurd (by simp [emitCond, hx]) hemit
              have h2 : hasChildrenIn table (potentialFull p seg) = false := by
                cases hx : hasChildrenIn table (potentialFull p seg) with
                | false => rfl
                | true => exact absurd (by simp [emitCond, hx]) hemit
              have h3 : formsValidIn table (potentialFull p seg) = false := by
                cases hx : formsValidIn table (potentialFull p seg) with
                | false => rfl
                | true => exact absurd (by simp [emitCond, hx]) hemit
              have hemit' : emitCond p table seg = false := by
                simp [emitCond, h1, h2, h3]
              simp [completeLoop, hsw, hseg, hseg0, hmem, List.filterMap_cons,
                List.filter_cons, dedupFirstAux, hemit', ih, h1, h2, h3]
    · simp [completeLoop, hsw, List.filterMap_cons, ih]

/-- C7: completion suggestions come out in the first-seen order of the
matching table keys — the segment sequence equals, definitionally in order,
the pipeline "next segments of the keys matching the typed prefix, in table
(declaration) order, deduplicated keeping first occurrences, filtered by the
validity test"; no sorting of any kind is applied. -/
theorem C7_order_is_first_seen (typedPath : String) (table : Table) :
    (completeCore typedPath table).map Suggestion.segment =
      (dedupFirst ((specSegs typedPath table).filter (fun s => s != ""))).filter
        (emitCond typedPath table) := by
  simpa [completeCore, dedupFirst, specSegs] using
    completeLoop_map_segment table typedPath table []

/-! ### String lemmas used for the completion-normalization claim -/

theorem splitDot_ne_nil (cs : List Char) : splitDot cs ≠ [] := by
  cases cs with
  | nil => simp [splitDot]
  | cons c rest =>
    by_cases hc : c = '.'
    · simp [splitDot, hc]
    · cases hsp : splitDot rest with
      | nil => simp [splitDot, hc, hsp]
      | cons h t => simp [splitDot, hc, hsp]

theorem splitDot_cons_dot (cs : List Char) : splitDot ('.' :: cs) = [] :: splitDot cs := by
  simp [splitDot]

theorem splitDot_cons_ne (c : Char) (cs : List Char) (hc : ¬ c = '.') :
    splitDot (c :: cs) = (c :: (splitDot cs).headD []) :: (splitDot cs).tail := by
  cases hsp : splitDot cs with
  | nil => exact absurd hsp (splitDot_ne_nil cs)
  | cons h t => simp [splitDot, hc, hsp]

theorem splitDot_length (cs : List Char) : (splitDot cs).length = cs.count '.' + 1 := by
  induction cs with
  | nil => simp [splitDot]
  | cons c rest ih =>
    by_cases hc : c = '.'
    · subst hc
      simp [splitDot_cons_dot, ih, List.count_cons]
    · rw [splitDot_cons_ne c rest hc]
      cases hsp : splitDot rest with
      | nil => exact absurd hsp (splitDot_ne_nil rest)
      | cons h t =>
        rw [hsp] at ih
        have hcount : (c :: rest).count '.' = rest.count '.' := by simp [List.count_cons, hc]
        simp only [List.headD_cons, List.tail_cons, List.length_cons, hcount] at ih ⊢
        omega

theorem headD_splitDot (cs : List Char) :
    (splitDot cs).headD [] = cs.takeWhile (fun c => c != '.') := by
  induction cs with
  | nil => simp [splitDot]
  | cons c rest ih =>
    by_cases hc : c = '.'
    · subst hc; simp [splitDot_cons_dot, List.takeWhile_cons]
    · rw [splitDot_cons_ne c rest hc]
      simp only [List.headD_cons, List.takeWhile_cons]
      have hcond : (c != '.') = true := by simp [hc]
      simp only [hcond, if_true]
      rw [← ih]

theorem getLastD_cons' {α : Type} (x : α) (l : List α) (d : α) :
    (x :: l).getLastD d = l.getLastD x := by
  cases l <;> simp [List.getLastD]

theorem getLastD_of_ne_nil {α : Type} (l : List α) (h : l ≠ []) (d d' : α) :
    l.getLastD d = l.getLastD d' := by
  cases l with
  | nil => exact absurd rfl h
  | cons a t => cases t <;> simp [List.getLastD]

theorem getLastD_splitDot_dot (X : List Char) :
    (splitDot (X ++ ['.'])).getLastD [] = [] := by
  induction X with
  | nil => simp [splitDot]
  | cons c X ih =>
    by_cases hc : c = '.'
    · subst hc
      rw [List.cons_append, splitDot_cons_dot, getLastD_cons']
      exact ih
    · rw [List.cons_append, splitDot_cons_ne c (X ++ ['.']) hc, getLastD_cons']
      cases hsp : splitDot (X ++ ['.']) with
      | nil => exact absurd hsp (splitDot_ne_nil _)
      | cons h t =>
        rw [hsp] at ih
        simp only [List.headD_cons, List.tail_cons]
        have hlen : (h :: t).length = (X ++ ['.']).count '.' + 1 := by
          rw [← hsp]; exact splitDot_length _
        have hcnt : 1 ≤ (X ++ ['.']).count '.' := by
          rw [List.count_append]
          simp
        have ht : t ≠ [] := by
          intro h0
          rw [h0] at hlen
          simp [List.count_append] at hlen
        rw [getLastD_of_ne_nil t ht (c :: h) h]
        rw [getLastD_cons'] at ih
        exact ih

theorem splitDot_getD_append (X : List Char) :
    ∀ (R : List Char),
      (splitDot (X ++ R)).getD (X.count '.') [] =
        (splitDot X).getLastD [] ++ (splitDot R).headD [] := by
  induction X with
  | nil =>
    intro R
    cases hsp : splitDot R with
    | nil => exact absurd hsp (splitDot_ne_nil R)
    | cons h t => simp [splitDot, hsp]
  | cons c X ih =>
    intro R
    by_cases hc : c = '.'
    · subst hc
      rw [List.cons_append, splitDot_cons_dot, splitDot_cons_dot]
      have hcc : (('.' : Char) == '.') = true := by simp
      simp only [List.count_cons, hcc, if_true]
      rw [List.getD_cons_succ, getLastD_cons']
      have hne := splitDot_ne_nil X
      rw [getLastD_of_ne_nil _ hne [] []]
      exact ih R
    · rw [List.cons_append, splitDot_cons_ne c (X ++ R) hc, splitDot_cons_ne c X hc]
      have hcount : (c :: X).count '.' = X.count '.' := by simp [List.count_cons, hc]
      rw [hcount]
      cases hspX : splitDot X with
      | nil => exact absurd hspX (splitDot_ne_nil X)
      | cons hX tX =>
        cases hspXR : splitDot (X ++ R) with
        | nil => exact absurd hspXR (splitDot_ne_nil _)
        | cons hXR tXR =>
          have hlenX : tX.length = X.count '.' := by
            have := splitDot_length X
            rw [hspX] at this
            simpa using this
          have ihR := ih R
          rw [hspX, hspXR] at ihR
          simp only [List.headD_cons, List.tail_cons]
          cases hcnt : X.count '.' with
          | zero =>
            have htX : tX = [] := by
              rw [hcnt] at hlenX
              exact List.length_eq_zero.mp hlenX
            subst htX
            rw [hcnt] at ihR
            rw [List.getD_cons_zero] at ihR
            rw [getLastD_cons', List.getLastD_nil] at ihR
            rw [List.getD_cons_zero, getLastD_cons', List.getLastD_nil,
              List.cons_append, ihR]
          | succ m =>
            have htX : tX ≠ [] := by
              intro h0
              rw [h0] at hlenX
              simp [hcnt] at hlenX
            rw [hcnt] at ihR
            rw [List.getD_cons_succ] at ihR
            rw [List.getD_cons_succ, ihR, getLastD_cons', getLastD_cons',
              getLastD_of_ne_nil tX htX (c :: hX) hX]

theorem prefix_append_split (Q A F : List Char) :
    (Q ++ A) <+: F ↔ Q <+: F ∧ A <+: F.drop Q.length := by
  constructor
  · rintro ⟨t, ht⟩
    subst ht
    constructor
    · exact ⟨A ++ t, by simp⟩
    · exact ⟨t, by simp [List.append_assoc, List.drop_left]⟩
  · rintro ⟨⟨t₁, ht₁⟩, ⟨t₂, ht₂⟩⟩
    subst ht₁
    rw [List.drop_left] at ht₂
    exact ⟨t₂, by rw [List.append_assoc, ht₂]⟩

theorem prefix_takeWhile_of_all {A R : List Char}
    (hA : ∀ c ∈ A, ¬ c = '.') (h : A <+: R) :
    A <+: R.takeWhile (fun c => c != '.') := by
  induction A generalizing R with
  | nil => simp
  | cons a A ih =>
    obtain ⟨t, ht⟩ := h
    cases R with
    | nil => simp at ht
    | cons r R' =>
      have har : a = r := by
        have := congrArg (fun l => l.headD ' ') ht
        simpa using this
      subst har
      have ha : ¬ a = '.' := hA a (by simp)
      have htl : A ++ t = R' := by
        have := congrArg List.tail ht
        simpa using this
      rw [List.takeWhile_cons]
      have hcond : (a != '.') = true := by simp [ha]
      simp only [hcond, if_true]
      obtain ⟨t', ht'⟩ := ih (fun c hc => hA c (by simp [hc])) ⟨t, htl⟩
      exact ⟨t', by rw [List.cons_append, ht']⟩

theorem lastDotIdx_lt_length (cs : List Char) (i : Nat) (h : lastDotIdx cs = some i) :
    i < cs.length := by
  induction cs generalizing i with
  | nil => simp [lastDotIdx] at h
  | cons c rest ih =>
    simp only [lastDotIdx] at h
    cases hrec : lastDotIdx rest with
    | some j =>
      rw [hrec] at h
      cases h
      exact Nat.succ_lt_succ (ih j hrec)
    | none =>
      rw [hrec] at h
      by_cases hc : c = '.'
      · rw [if_pos hc] at h
        cases h
        simp
      · rw [if_neg hc] at h
        cases h

theorem lastDotIdx_getElem (cs : List Char) (i : Nat) (h : lastDotIdx cs = some i) :
    cs[i]? = some '.' := by
  induction cs generalizing i with
  | nil => simp [lastDotIdx] at h
  | cons c rest ih =>
    simp only [lastDotIdx] at h
    cases hrec : lastDotIdx rest with
    | some j =>
      rw [hrec] at h
      cases h
      simpa using ih j hrec
    | none =>
      rw [hrec] at h
      by_cases hc : c = '.'
      · rw [if_pos hc] at h
        cases h
        simp [hc]
      · rw [if_neg hc] at h
        cases h

theorem lastDotIdx_none_nodot (cs : List Char) (h : lastDotIdx cs = none) :
    ∀ c ∈ cs, ¬ c = '.' := by
  induction cs with
  | nil => simp
  | cons c rest ih =>
    simp only [lastDotIdx] at h
    cases hrec : lastDotIdx rest with
    | some j => rw [hrec] at h; cases h
    | none =>
      rw [hrec] at h
      by_cases hc : c = '.'
      · rw [if_pos hc] at h; cases h
      · intro x hx
        rcases List.mem_cons.mp hx with hx | hx
        · rw [hx]; exact hc
        · exact ih hrec x hx

theorem lastDotIdx_after_nodot (cs : List Char) (i : Nat) (h : lastDotIdx cs = some i) :
    ∀ c ∈ cs.drop (i + 1), ¬ c = '.' := by
  induction cs generalizing i with
  | nil => simp [lastDotIdx] at h
  | cons c rest ih =>
    simp only [lastDotIdx] at h
    cases hrec : lastDotIdx rest with
    | some j =>
      rw [hrec] at h
      cases h
      simpa using ih j hrec
    | none =>
      rw [hrec] at h
      by_cases hc : c = '.'
      · rw [if_pos hc] at h
        cases h
        simpa using lastDotIdx_none_nodot rest hrec
      · rw [if_neg hc] at h
        cases h

/-- The normalized prefix `p.substring(0, lastDot + 1)` ends in a dot. -/
theorem take_lastDot_ends_dot (cs : List Char) (i : Nat) (h : lastDotIdx cs = some i) :
    ∃ X, cs.take (i + 1) = X ++ ['.'] := by
  refine ⟨cs.take i, ?_⟩
  rw [List.take_succ, lastDotIdx_getElem cs i h]
  rfl

/-- A dotless list is a prefix of a list iff it is a prefix of the list's
first dot-separated piece. -/
theorem prefix_iff_prefix_headD (A R : List Char) (hA : ∀ c ∈ A, ¬ c = '.') :
    A <+: R ↔ A <+: (splitDot R).headD [] := by
  rw [headD_splitDot]
  constructor
  · exact prefix_takeWhile_of_all hA
  · intro h
    exact h.trans (List.takeWhile_prefix _)

/-- Splitting of the `startsWith` test along the last-dot boundary. -/
theorem startsWith_split_at_boundary (p q frag full : String)
    (hsplit : q.data ++ frag.data = p.data) :
    jsStartsWith full p = true ↔
      (q.data <+: full.data ∧ frag.data <+: full.data.drop q.data.length) := by
  rw [jsStartsWith, List.isPrefixOf_iff_prefix, ← hsplit]
  exact prefix_append_split _ _ _

/-- For a typed path ending in `.`, the suggested segment is the first piece
after the boundary. -/
theorem nextSegment_of_endsWith (q full : String) (hq : jsEndsWith q "." = true) :
    nextSegment q full = some ⟨(splitDot (full.data.drop q.data.length)).headD []⟩ := by
  simp [nextSegment, hq]

/-- For a mid-segment typed path whose boundary prefix is a prefix of the
candidate, the suggested segment is the same first piece after the
boundary. -/
theorem nextSegment_of_mid (p full : String) (i : Nat)
    (hdot : lastDotIdx p.data = some i) (hend : jsEndsWith p "." = false)
    (hpre : (p.data.take (i + 1)) <+: full.data) :
    nextSegment p full =
      some ⟨(splitDot (full.data.drop (p.data.take (i + 1)).length)).headD []⟩ := by
  obtain ⟨X, hX⟩ := take_lastDot_ends_dot p.data i hdot
  obtain ⟨R, hR⟩ := hpre
  have hcnt_frag : (p.data.drop (i + 1)).count '.' = 0 :=
    List.count_eq_zero.mpr (fun hmem => lastDotIdx_after_nodot p.data i hdot '.' hmem rfl)
  have hcnt_p : p.data.count '.' = (p.data.take (i + 1)).count '.' := by
    conv_lhs => rw [← List.take_append_drop (i + 1) p.data]
    rw [List.count_append, hcnt_frag]
    omega
  have hcnt_full : (p.data.take (i + 1)).count '.' + R.count '.' = full.data.count '.' := by
    rw [← hR, List.count_append]
  have hlen_p : (splitDot p.data).length = p.data.count '.' + 1 := splitDot_length _
  have hlen_full : (splitDot full.data).length = full.data.count '.' + 1 := splitDot_length _
  have hguard : 0 < (splitDot p.data).length ∧
      (splitDot p.data).length ≤ (splitDot full.data).length := by
    constructor
    · omega
    · omega
  simp only [nextSegment, hend, Bool.false_eq_true, if_false, hguard, and_self, if_true]
  congr 1
  have hidx : (splitDot p.data).length - 1 = (p.data.take (i + 1)).count '.' := by
    omega
  rw [hidx]
  have hdrop : full.data.drop (p.data.take (i + 1)).length = R := by
    rw [← hR, List.drop_left]
  rw [hdrop, ← hR, splitDot_getD_append, hX, getLastD_splitDot_dot, List.nil_append]

/-- The completed path of a suggestion is the same whether computed from the
mid-segment typed path or from its boundary normalization. -/
theorem potentialFull_eq_boundary (p : String) (i : Nat)
    (hdot : lastDotIdx p.data = some i) (hend : jsEndsWith p "." = false)
    (hqends : jsEndsWith (jsTakeStr p (i + 1)) "." = true) (seg : String) :
    potentialFull p seg = potentialFull (jsTakeStr p (i + 1)) seg := by
  simp [potentialFull, hend, hdot, hqends]


/-- Master lemma for the normalization claim: running the completion loop
with a mid-segment typed path equals running it with the boundary-normalized
typed path and filtering the output to the suggestions whose segment extends
the partially typed final segment, provided the two seen sets are related by
that same filter. -/
theorem completeLoop_mid_filter (table : Table) (p : String) (i : Nat)
    (hdot : lastDotIdx p.data = some i) (hend : jsEndsWith p "." = false) :
    ∀ (rest : List (String × JSVal)) (seen : List String),
      completeLoop table p rest
          (seen.filter (fun s => jsStartsWith s (jsDropStr p (i + 1)))) =
        (completeLoop table (jsTakeStr p (i + 1)) rest seen).filter
          (fun sug => jsStartsWith sug.segment (jsDropStr p (i + 1))) := by
  obtain ⟨X, hX⟩ := take_lastDot_ends_dot p.data i hdot
  have hqends : jsEndsWith (jsTakeStr p (i + 1)) "." = true := by
    simp only [jsEndsWith]
    exact List.isSuffixOf_iff_suffix.mpr ⟨X, hX.symm⟩
  have hfrag_nodot : ∀ c ∈ (jsDropStr p (i + 1)).data, ¬ c = '.' :=
    lastDotIdx_after_nodot p.data i hdot
  have hfrag_ne : (jsDropStr p (i + 1)).data ≠ [] := by
    intro h0
    have hp : p.data = p.data.take (i + 1) := by
      conv_lhs => rw [← List.take_append_drop (i + 1) p.data]
      rw [show p.data.drop (i + 1) = (jsDropStr p (i + 1)).data from rfl, h0,
        List.append_nil]
    have hpe : jsEndsWith p "." = true := by
      simp only [jsEndsWith]
      refine List.isSuffixOf_iff_suffix.mpr ⟨X, ?_⟩
      rw [← hX, ← hp]
    rw [hpe] at hend
    cases hend
  have hsplit : (jsTakeStr p (i + 1)).data ++ (jsDropStr p (i + 1)).data = p.data :=
    List.take_append_drop (i + 1) p.data
  have hpot : ∀ seg, potentialFull p seg = potentialFull (jsTakeStr p (i + 1)) seg :=
    potentialFull_eq_boundary p i hdot hend hqends
  intro rest
  induction rest with
  | nil => intro seen; rfl
  | cons kv rest ih =>
    intro seen
    obtain ⟨full, v⟩ := kv
    by_cases hswq : jsStartsWith full (jsTakeStr p (i + 1)) = true
    · have hpreq : (jsTakeStr p (i + 1)).data <+: full.data := by
        have hx := hswq
        simp only [jsStartsWith] at hx
        exact List.isPrefixOf_iff_prefix.mp hx
      obtain ⟨sq, hsq⟩ : ∃ sq : String,
          (⟨(splitDot (full.data.drop (jsTakeStr p (i + 1)).data.length)).headD []⟩ :
            String) = sq := ⟨_, rfl⟩
      have hsegq : nextSegment (jsTakeStr p (i + 1)) full = some sq := by
        rw [← hsq]
        exact nextSegment_of_endsWith _ full hqends
      have hsegp : nextSegment p full = some sq := by
        rw [← hsq]
        exact nextSegment_of_mid p full i hdot hend hpreq
      have hsqdata : sq.data =
          (splitDot (full.data.drop (jsTakeStr p (i + 1)).data.length)).headD [] := by
        rw [← hsq]
      by_cases hfx : jsStartsWith sq (jsDropStr p (i + 1)) = true
      · -- the candidate extends the mid-segment typed path
        have hfragpre : (jsDropStr p (i + 1)).data <+:
            full.data.drop (jsTakeStr p (i + 1)).data.length := by
          have hx := hfx
          simp only [jsStartsWith, hsqdata] at hx
          exact (prefix_iff_prefix_headD _ _ hfrag_nodot).mpr
            (List.isPrefixOf_iff_prefix.mp hx)
        have hswp : jsStartsWith full p = true :=
          (startsWith_split_at_boundary p (jsTakeStr p (i + 1)) (jsDropStr p (i + 1))
            full hsplit).mpr ⟨hpreq, hfragpre⟩
        have hsqne : ¬ (sq = "") := by
          intro h0
          have hx := hfx
          simp only [jsStartsWith] at hx
          obtain ⟨t, ht⟩ := List.isPrefixOf_iff_prefix.mp hx
          rw [h0] at ht
          exact hfrag_ne (List.append_eq_nil.mp ht).1
        by_cases hmem : sq ∈ seen
        · have hmemF : sq ∈ seen.filter (fun s => jsStartsWith s (jsDropStr p (i + 1))) :=
            List.mem_filter.mpr ⟨hmem, hfx⟩
          simp [completeLoop, hswq, hswp, hsegp, hsegq, hsqne, hmem, hmemF, ih seen]
        · have ihx := ih (sq :: seen)
          rw [show List.filter (fun s => jsStartsWith s (jsDropStr p (i + 1))) (sq :: seen) =
              sq :: List.filter (fun s => jsStartsWith s (jsDropStr p (i + 1))) seen from by
            simp [List.filter_cons, hfx]] at ihx
          simp only [completeLoop, hswq, hswp, hsegp, hsegq, if_true]
          simp only [hpot sq]
          simp [hsqne, hmem, hfx, ihx, List.filter_cons]
          by_cases hskip : (hasOwn table (potentialFull (jsTakeStr p (i + 1)) sq) = false ∧
              hasChildrenIn table (potentialFull (jsTakeStr p (i + 1)) sq) = false) ∧
              formsValidIn table (potentialFull (jsTakeStr p (i + 1)) sq) = false
          · rw [if_pos hskip, if_pos hskip]
          · rw [if_neg hskip, if_neg hskip, List.filter_cons]
            simp [hfx]
      · -- the candidate does not extend the mid-segment typed path
        have hfx' : jsStartsWith sq (jsDropStr p (i + 1)) = false := Bool.eq_false_iff.mpr hfx
        have hswp : jsStartsWith full p = false := by
          cases hx : jsStartsWith full p with
          | false => rfl
          | true =>
            have h2 := (startsWith_split_at_boundary p (jsTakeStr p (i + 1))
              (jsDropStr p (i + 1)) full hsplit).mp hx
            have h3 : (jsDropStr p (i + 1)).data <+: sq.data := by
              rw [hsqdata]
              exact (prefix_iff_prefix_headD _ _ hfrag_nodot).mp h2.2
            have h4 : jsStartsWith sq (jsDropStr p (i + 1)) = true := by
              simp only [jsStartsWith]
              exact List.isPrefixOf_iff_prefix.mpr h3
            exact absurd h4 hfx
        by_cases hsq0 : sq = ""
        · simp [completeLoop, hswq, hswp, hsegq, hsq0, ih seen]
        · by_cases hmem : sq ∈ seen
          · simp [completeLoop, hswq, hswp, hsegq, hsq0, hmem, ih seen]
          · have hfilter_eq : (sq :: seen).filter
                (fun s => jsStartsWith s (jsDropStr p (i + 1))) =
                seen.filter (fun s => jsStartsWith s (jsDropStr p (i + 1))) := by
              simp [List.filter_cons, hfx']
            have ihx := ih (sq :: seen)
            rw [hfilter_eq] at ihx
            simp [completeLoop, hswq, hswp, hsegq, hsq0, hmem, ihx, hfx', ih seen]
            by_cases hskip : (hasOwn table (potentialFull (jsTakeStr p (i + 1)) sq) = false ∧
                hasChildrenIn table (potentialFull (jsTakeStr p (i + 1)) sq) = false) ∧
                formsValidIn table (potentialFull (jsTakeStr p (i + 1)) sq) = false
            · rw [if_pos hskip]
            · rw [if_neg hskip, List.filter_cons]
              simp [hfx']
    · have hswq' : jsStartsWith full (jsTakeStr p (i + 1)) = false :=
        Bool.eq_false_iff.mpr hswq
      have hswp : jsStartsWith full p = false := by
        cases hx : jsStartsWith full p with
        | false => rfl
        | true =>
          have h2 := (startsWith_split_at_boundary p (jsTakeStr p (i + 1))
            (jsDropStr p (i + 1)) full hsplit).mp hx
          have h4 : jsStartsWith full (jsTakeStr p (i + 1)) = true := by
            simp only [jsStartsWith]
            exact List.isPrefixOf_iff_prefix.mpr h2.1
          exact absurd h4 hswq
      simp [completeLoop, hswp, hswq', ih seen]

/-- C6 counterexample: over the palette table, completion for the
mid-segment prefix `palette.pri` and completion for its node-boundary
normalization `palette.` do not produce identical suggestion lists — the
mid-segment run filters out `secondary`, which the boundary run returns. -/
theorem C6_identical_lists_cex :
    completeCore "palette.pri" tablePalette ≠ completeCore "palette." tablePalette := by
  decide

/-- C6 amended: for every table and mid-segment typed prefix (one containing
a dot and not ending in one), the mid-segment completion list equals the
completion list of the prefix truncated back to its last `.`, filtered to
the suggestions whose segment begins with the partially typed final segment.
The lists are therefore not identical in general; the mid-segment list is
the sublist of extending suggestions, with identical records and order. -/
theorem C6_mid_segment_filters (table : Table) (p : String) (i : Nat)
    (hdot : lastDotIdx p.data = some i) (hend : jsEndsWith p "." = false) :
    completeCore p table =
      (completeCore (jsTakeStr p (i + 1)) table).filter
        (fun sug => jsStartsWith sug.segment (jsDropStr p (i + 1))) := by
  have h := completeLoop_mid_filter table p i hdot hend table []
  simpa [completeCore] using h

/-- Witness for C6's amended theorem at the specification's palette table. -/
theorem C6_mid_segment_filters_witness :
    completeCore "palette.pri" tablePalette =
      (completeCore (jsTakeStr "palette.pri" 8) tablePalette).filter
        (fun sug => jsStartsWith sug.segment (jsDropStr "palette.pri" 8)) :=
  C6_mid_segment_filters tablePalette "palette.pri" 7 (by decide) (by decide)

end StyledTheme
